import Mathlib

/-!
Verification development for `build_network.py`: a script that reads an
`edges.csv` of intertextual-influence records, builds an undirected graph,
lays nodes out on a timeline, and emits a Plotly figure with per-theme
visibility toggles.  The Python source is shallowly embedded below: pure
functions become Lean functions, the `networkx` graph becomes an explicit
association-list structure, Plotly traces become a first-order `Trace`
datatype, and process-level effects (directory creation, stderr, exit
codes, the HTML write) become an explicit effect list.
-/

set_option maxHeartbeats 2000000
set_option maxRecDepth 4000

namespace BuildNetwork

/-! ### String helpers: `str.strip` / `str.lower` (ASCII fragment) -/

/-- The whitespace characters removed by Python's default `str.strip`
(ASCII fragment; exotic Unicode spaces are not modelled). -/
def pyIsSpace (c : Char) : Bool :=
  c = ' ' || c = '\t' || c = '\n' || c = '\r' || c = '\x0b' || c = '\x0c'

/-- Python `str.lower` on a single character (ASCII fragment: `A`–`Z`
shift to `a`–`z`; other characters are unchanged). -/
def pyLower (c : Char) : Char :=
  if 65 ≤ c.toNat ∧ c.toNat ≤ 90 then Char.ofNat (c.toNat + 32) else c

/-- Python `str.strip()` on the character list of a string: drop the
leading whitespace run, then the trailing whitespace run. -/
def pyStrip (l : List Char) : List Char :=
  List.rdropWhile pyIsSpace (l.dropWhile pyIsSpace)

/-- `normalize_theme` (line 28): `t.strip().lower()`. -/
def normalize_theme (s : String) : String :=
  ⟨(pyStrip s.data).map pyLower⟩

/-- Python `s.split(";")` on the character list: the segments between the
semicolons (`"".split(";")` gives `[""]`). -/
def splitSemi : List Char → List (List Char)
  | [] => [[]]
  | c :: rest =>
    if c = ';' then [] :: splitSemi rest
    else
      match splitSemi rest with
      | [] => [[c]]
      | h :: t => (c :: h) :: t

/-- The themes-cell parser inside `load_edges` (line 41):
`[normalize_theme(t) for t in row.get("themes","").split(";") if t.strip()]`. -/
def parseThemes (s : String) : List String :=
  (((splitSemi s.data).map (fun l => (⟨l⟩ : String))).filter
      (fun t => pyStrip t.data ≠ [])).map normalize_theme

/-! ### Data model: edge records and the graph -/

/-- One parsed row of `edges.csv` (output of `load_edges`, lines 31–44). -/
structure EdgeRec where
  src : String
  sy : Int
  tgt : String
  ty : Int
  w : Int
  themes : List String
  note : String
deriving DecidableEq, Repr

/-- The attribute dict stored on a graph edge (line 53). -/
structure EdgeAttrs where
  weight : Int
  themes : List String
  note : String
deriving DecidableEq, Repr

/-- The `networkx.Graph`: insertion-ordered node list (name, `year`
attribute) and insertion-ordered edge list keyed by unordered name pair. -/
structure Graph where
  nodes : List (String × Int)
  edges : List (String × String × EdgeAttrs)
deriving DecidableEq, Repr

def emptyGraph : Graph := ⟨[], []⟩

/-- `G.add_node(n, year=y)`: a fresh node is appended; an existing node
keeps its position and gets its `year` attribute overwritten. -/
def setNode : List (String × Int) → String → Int → List (String × Int)
  | [], n, y => [(n, y)]
  | p :: ps, n, y => if p.1 = n then (n, y) :: ps else p :: setNode ps n y

/-- Unordered equality of endpoint pairs (the graph is undirected). -/
def samePair (a b : String × String) : Bool :=
  (a.1 == b.1 && a.2 == b.2) || (a.1 == b.2 && a.2 == b.1)

/-- `G.add_edge(u, v, ...)`: a fresh pair is appended; an existing pair
keeps its position and stored orientation and gets its attributes
overwritten wholesale. -/
def setEdge : List (String × String × EdgeAttrs) → String → String → EdgeAttrs →
    List (String × String × EdgeAttrs)
  | [], u, v, d => [(u, v, d)]
  | e :: es, u, v, d =>
    if samePair (e.1, e.2.1) (u, v) then (e.1, e.2.1, d) :: es else e :: setEdge es u v d

/-- The body of the `build_graph` loop (lines 48–53): upsert both endpoint
nodes (source first, then target), then upsert the edge. -/
def addRecord (G : Graph) (r : EdgeRec) : Graph :=
  let ns := setNode (setNode G.nodes r.src r.sy) r.tgt r.ty
  ⟨ns, setEdge G.edges r.src r.tgt ⟨r.w, r.themes, r.note⟩⟩

/-- `build_graph` (lines 46–54). -/
def build_graph (es : List EdgeRec) : Graph := es.foldl addRecord emptyGraph

/-- Index of a node name in the node insertion order. -/
def nameIdx (G : Graph) (n : String) : Nat := G.nodes.findIdx (fun p => p.1 == n)

/-- `networkx` reports each undirected edge from the endpoint that occurs
earlier in node insertion order; this reorients a stored edge accordingly. -/
def orientEdge (G : Graph) (e : String × String × EdgeAttrs) : String × String × EdgeAttrs :=
  if nameIdx G e.1 ≤ nameIdx G e.2.1 then e else (e.2.1, e.1, e.2.2)

/-- `G.edges(data=True)`: every stored edge exactly once, oriented by node
insertion order.  (The inter-edge iteration order of `networkx` is not
observable in any property below, so the stored order is kept.) -/
def edgesView (G : Graph) : List (String × String × EdgeAttrs) := G.edges.map (orientEdge G)

/-! ### Layout: `positions` (lines 56–60) -/

/-- The sort key of `sorted(G.nodes(), key=lambda n: year)`. -/
def nodeLe (a b : String × Int) : Prop := a.2 ≤ b.2

instance : DecidableRel nodeLe := fun a b => inferInstanceAs (Decidable (a.2 ≤ b.2))

instance : IsTotal (String × Int) nodeLe := ⟨fun a b => Int.le_total a.2 b.2⟩

instance : IsTrans (String × Int) nodeLe := ⟨fun _ _ _ h h' => le_trans h h'⟩

/-- `nodes_sorted` (line 58): Python's `sorted` is stable, modelled by
stable insertion sort on the `year` key. -/
def sortedNodes (G : Graph) : List (String × Int) := List.insertionSort nodeLe G.nodes

/-- `positions` (lines 56–60): node ↦ `(year, rank in the year-sorted order)`. -/
def positions (G : Graph) : List (String × (Int × Int)) :=
  G.nodes.map fun p =>
    (p.1, (p.2, ((sortedNodes G).findIdx (fun q => q.1 == p.1) : Int)))

/-- Dictionary access `pos[n]` (total with a junk default; every use in the
script looks up a node that is present). -/
def posOf (G : Graph) (n : String) : Int × Int :=
  (((positions G).find? (fun q => q.1 == n)).map (fun q => q.2)).getD (0, 0)

/-! ### Themes -/

/-- Lexicographic comparison of character lists by code point — the order
Python's `sorted` uses on strings. -/
def charListLe : List Char → List Char → Bool
  | [], _ => true
  | _ :: _, [] => false
  | a :: as, b :: bs =>
    if a.toNat < b.toNat then true
    else if b.toNat < a.toNat then false
    else charListLe as bs

/-- The sort key of `sorted({...})` on strings. -/
def strLe (a b : String) : Prop := charListLe a.data b.data = true

instance : DecidableRel strLe := fun a b =>
  inferInstanceAs (Decidable (charListLe a.data b.data = true))

instance : IsTotal String strLe := ⟨fun a b => by
  show charListLe a.data b.data = true ∨ charListLe b.data a.data = true
  generalize a.data = l
  generalize b.data = m
  induction l generalizing m with
  | nil => left; rfl
  | cons x xs ih =>
    cases m with
    | nil => right; rfl
    | cons y ys =>
      simp only [charListLe]
      rcases Nat.lt_trichotomy x.toNat y.toNat with h | h | h
      · left; simp [h]
      · rw [if_neg (by omega), if_neg (by omega), if_neg (by omega), if_neg (by omega)]
        exact ih ys
      · right; simp [h]⟩

instance : IsTrans String strLe := ⟨fun a b c => by
  show charListLe a.data b.data = true → charListLe b.data c.data = true →
    charListLe a.data c.data = true
  generalize a.data = l
  generalize b.data = m
  generalize c.data = k
  induction l generalizing m k with
  | nil => intro _ _; rfl
  | cons x xs ih =>
    intro hab hbc
    cases m with
    | nil => simp [charListLe] at hab
    | cons y ys =>
      cases k with
      | nil => simp [charListLe] at hbc
      | cons z zs =>
        simp only [charListLe] at hab hbc ⊢
        by_cases hxy : x.toNat < y.toNat
        · by_cases hyz : y.toNat < z.toNat
          · rw [if_pos (by omega)]
          · rw [if_neg hyz] at hbc
            by_cases hzy : z.toNat < y.toNat
            · rw [if_pos hzy] at hbc; exact absurd hbc (by simp)
            · rw [if_pos (by omega)]
        · rw [if_neg hxy] at hab
          by_cases hyx : y.toNat < x.toNat
          · rw [if_pos hyx] at hab; exact absurd hab (by simp)
          · rw [if_neg hyx] at hab
            by_cases hyz : y.toNat < z.toNat
            · rw [if_pos (by omega)]
            · rw [if_neg hyz] at hbc
              by_cases hzy : z.toNat < y.toNat
              · rw [if_pos hzy] at hbc; exact absurd hbc (by simp)
              · rw [if_neg hzy] at hbc
                rw [if_neg (by omega), if_neg (by omega)]
                exact ih ys zs hab hbc⟩

/-- `all_themes` (line 105): the distinct themes over all records, sorted
ascending. -/
def allThemes (es : List EdgeRec) : List String :=
  List.insertionSort strLe (es.flatMap (fun r => r.themes)).dedup

/-! ### Traces -/

/-- A Plotly trace, restricted to the attributes the script sets.  Edge
traces: coordinate arrays with `None` separators, line width, joined hover
text, optional opacity, visibility, name.  The node trace: coordinate
arrays, per-node label text, marker sizes, name.  (The node hover strings
use `%.2f` float formatting, which is not modelled.) -/
inductive Trace where
  | edgeT (x y : List (Option Int)) (lineWidth : Rat) (text : String)
      (opacity : Option Rat) (visible : Bool) (name : String)
  | nodeT (x y : List Int) (text : List String) (sizes : List Rat) (name : String)
deriving DecidableEq, Repr

/-- `', '.join(themes) or '—'` (line 74). -/
def fmtThemes (ts : List String) : String :=
  let j := String.intercalate ", " ts
  if j = "" then "—" else j

/-- The hover-text block built for one accepted edge (lines 73–76). -/
def edgeBlock (u v : String) (d : EdgeAttrs) : String :=
  u ++ " → " ++ v ++ "<br>" ++ "Themes: " ++ fmtThemes d.themes ++ "<br>" ++
    "Influence: " ++ toString d.weight ++ " / 3" ++ "<br>" ++ d.note

/-- `"<br>".join(texts)` (line 85). -/
def brJoin : List String → String
  | [] => ""
  | [s] => s
  | s :: t :: rest => s ++ "<br>" ++ brJoin (t :: rest)

/-- The weight guard of `make_edge_trace` (line 67): skip unless the edge
weight equals the requested weight (no guard when `weight is None`). -/
def weightMatch (w : Option Int) (d : EdgeAttrs) : Bool :=
  match w with
  | none => true
  | some k => d.weight == k

/-- The edges surviving both `continue` guards of `make_edge_trace`. -/
def acceptedEdges (G : Graph) (filt : String → String → EdgeAttrs → Bool)
    (w : Option Int) : List (String × String × EdgeAttrs) :=
  (edgesView G).filter (fun e => filt e.1 e.2.1 e.2.2 && weightMatch w e.2.2)

/-- The `weight` suffix of the trace name: `f" (w={weight})" if weight else ""`. -/
def wSuffix (w : Option Int) : String :=
  match w with
  | none => ""
  | some k => if k ≠ 0 then " (w=" ++ toString k ++ ")" else ""

/-- The line width `2.5 * (weight if weight is not None else 1.5)`. -/
def traceWidth (w : Option Int) : Rat :=
  match w with
  | none => 5 / 2 * (3 / 2)
  | some k => 5 / 2 * (k : Rat)

/-- `make_edge_trace` (lines 62–88). -/
def make_edge_trace (G : Graph) (posf : String → Int × Int)
    (filt : String → String → EdgeAttrs → Bool) (w : Option Int) (sfx : String) : Trace :=
  let acc := acceptedEdges G filt w
  let x := acc.flatMap fun e => [some (posf e.1).1, some (posf e.2.1).1, none]
  let y := acc.flatMap fun e => [some (posf e.1).2, some (posf e.2.1).2, none]
  let texts := acc.map fun e => edgeBlock e.1 e.2.1 e.2.2
  if x = [] then
    Trace.edgeT [none] [none] 1 "" none false ("edges" ++ sfx)
  else
    Trace.edgeT x y (traceWidth w) (brJoin texts) (some (3 / 5)) true
      ("Edges" ++ sfx ++ wSuffix w)

/-- `nx.degree_centrality` numerator: node degree, self-loops counting twice. -/
def degree (G : Graph) (n : String) : Nat :=
  G.edges.foldl
    (fun acc e => acc + (if e.1 == n then 1 else 0) + (if e.2.1 == n then 1 else 0)) 0

/-- `nx.degree_centrality` (line 122): degree divided by `len(G) - 1`,
with the library's guard returning `1` on graphs with at most one node. -/
def degCent (G : Graph) (n : String) : Rat :=
  if G.nodes.length ≤ 1 then 1
  else (degree G n : Rat) / ((G.nodes.length : Rat) - 1)

/-- The node-marker trace (lines 123–133). -/
def node_trace (G : Graph) : Trace :=
  Trace.nodeT
    (G.nodes.map fun p => (posOf G p.1).1)
    (G.nodes.map fun p => (posOf G p.1).2)
    (G.nodes.map fun p => p.1 ++ "<br>" ++ "Year≈" ++ toString p.2)
    (G.nodes.map fun p => 18 + 40 * degCent G p.1)
    "Works"

/-- The all-pass filter `lambda u,v,d: True` (lines 110–111). -/
def allPass : String → String → EdgeAttrs → Bool := fun _ _ _ => true

/-- The per-theme filter `lambda u,v,d,th=theme: th in d.get("themes", [])`
(lines 116–117). -/
def themeFilt (th : String) : String → String → EdgeAttrs → Bool :=
  fun _ _ d => d.themes.contains th

/-- The trace list assembled in `main` (lines 108–134): the two aggregate
traces, the per-theme weight-2/weight-3 pairs in sorted theme order, then
the node trace. -/
def mkTraces (es : List EdgeRec) : List Trace :=
  let G := build_graph es
  let posf := posOf G
  [make_edge_trace G posf allPass (some 2) "_all_w2",
   make_edge_trace G posf allPass (some 3) "_all_w3"]
    ++ (allThemes es).flatMap (fun th =>
        [make_edge_trace G posf (themeFilt th) (some 2) ("_" ++ th ++ "_w2"),
         make_edge_trace G posf (themeFilt th) (some 3) ("_" ++ th ++ "_w3")])
    ++ [node_trace G]

/-! ### Visibility vectors (lines 142–157) -/

/-- `vis_all` (lines 142–147). -/
def vis_all (es : List EdgeRec) : List Bool :=
  let n := (mkTraces es).length
  (((List.replicate n false).set 0 true).set 1 true).set (n - 1) true

/-- `vis_for_theme` (lines 149–157): `base = 2 + t_idx*2`. -/
def vis_for_theme (es : List EdgeRec) (theme : String) : List Bool :=
  let n := (mkTraces es).length
  let i := (allThemes es).findIdx (fun t => t == theme)
  (((List.replicate n false).set (2 + i * 2) true).set (2 + i * 2 + 1) true).set (n - 1) true

/-! ### Process-level behaviour as an effect trace -/

/-- Observable process effects of one script run. -/
inductive Effect where
  | mkdirAssets
  | writeStderr (msg : String)
  | writeStdout (msg : String)
  | writeHtml (traces : List Trace)
  | exitWith (code : Nat)
deriving DecidableEq, Repr

/-- The attempted input path `REPO_ROOT / "edges.csv"` (line 91). -/
def csvPath (repoRoot : String) : String := repoRoot ++ "/edges.csv"

/-- The output path `ASSETS / "interactive.html"` (line 174). -/
def htmlPath (repoRoot : String) : String := repoRoot ++ "/assets/interactive.html"

/-- `main` (lines 90–176), with the filesystem abstracted: the input is
`none` when `edges.csv` is missing, otherwise the parsed record list. -/
def mainEffects (repoRoot : String) : Option (List EdgeRec) → List Effect
  | none => [.writeStderr ("CSV not found at " ++ csvPath repoRoot), .exitWith 1]
  | some [] => [.writeStderr "No edges found in CSV.", .exitWith 1]
  | some es => [.writeHtml (mkTraces es),
                .writeStdout ("Wrote " ++ htmlPath repoRoot), .exitWith 0]

/-- Running the script: module load performs `ASSETS.mkdir` (lines 24–26)
before `main` is entered. -/
def runScript (repoRoot : String) (input : Option (List EdgeRec)) : List Effect :=
  Effect.mkdirAssets :: mainEffects repoRoot input

/-! ### Specification-side helper definitions -/

/-- Does record `r` mention title `n` (as source or target)? -/
def touches (n : String) (r : EdgeRec) : Bool := r.src == n || r.tgt == n

/-- The last-seen year for a title across the record sequence: the year the
last record mentioning the title assigns it (the target slot wins over the
source slot within one record, matching the `add_node` order). -/
def lastSeenYear (es : List EdgeRec) (n : String) : Option Int :=
  (es.reverse.find? (touches n)).map fun r => if r.tgt == n then r.ty else r.sy

/-- The `year` attribute stored on node `n`. -/
def yearOf (G : Graph) (n : String) : Option Int :=
  (G.nodes.find? (fun p => p.1 == n)).map (fun p => p.2)

/-- The attributes of the (unique) graph edge on the unordered pair. -/
def edgeAttrsOf (G : Graph) (u v : String) : Option EdgeAttrs :=
  (G.edges.find? (fun e => samePair (e.1, e.2.1) (u, v))).map (fun e => e.2.2)

/-- The attributes carried by the last record on the unordered pair. -/
def lastPairAttrs (es : List EdgeRec) (u v : String) : Option EdgeAttrs :=
  (es.reverse.find? (fun r => samePair (r.src, r.tgt) (u, v))).map
    fun r => ⟨r.w, r.themes, r.note⟩

/-- Substring containment on strings. -/
def isSubstr (pat s : String) : Prop := pat.data <:+: s.data

instance (pat s : String) : Decidable (isSubstr pat s) :=
  inferInstanceAs (Decidable (pat.data <:+: s.data))

/-- The hover text carried by a trace (edge traces only; the node trace
keeps its text per node). -/
def traceText : Trace → String
  | .edgeT _ _ _ t _ _ _ => t
  | .nodeT _ _ _ _ _ => ""

/-- The two-row end-to-end scenario of the specification. -/
def scenarioRows : List EdgeRec :=
  [⟨"A", 1800, "B", 1810, 2, parseThemes "freedom", ""⟩,
   ⟨"B", 1810, "C", 1850, 3, parseThemes "freedom;abolition", "x"⟩]

/-- A record sequence whose first two rows duplicate the pair `A`–`B` and
whose third row mentions `A` again with a different year. -/
def dupRows : List EdgeRec :=
  [⟨"A", 1800, "B", 1810, 2, [], ""⟩,
   ⟨"A", 1805, "B", 1815, 3, ["x"], "n2"⟩,
   ⟨"A", 1900, "C", 1910, 1, [], ""⟩]

/-- A record sequence whose second row's source title (`C`) enters the node
order later than its target title (`A`). -/
def crossRows : List EdgeRec :=
  [⟨"A", 1800, "B", 1810, 2, [], ""⟩,
   ⟨"C", 1820, "A", 1830, 2, [], ""⟩]

/-! ## Helper lemmas -/

/-! ### Characters: `pyLower` and `pyIsSpace` -/

lemma toNat_ofNat_valid (n : Nat) (h : n.isValidChar) : (Char.ofNat n).toNat = n := by
  unfold Char.ofNat
  rw [dif_pos h]
  rfl

lemma pyLower_toNat_of_range (c : Char) (h : 65 ≤ c.toNat ∧ c.toNat ≤ 90) :
    (pyLower c).toNat = c.toNat + 32 := by
  unfold pyLower
  rw [if_pos h]
  exact toNat_ofNat_valid _ (Or.inl (by omega))

lemma pyLower_of_not_range (c : Char) (h : ¬(65 ≤ c.toNat ∧ c.toNat ≤ 90)) :
    pyLower c = c := if_neg h

lemma pyLower_pyLower (c : Char) : pyLower (pyLower c) = pyLower c := by
  by_cases h : 65 ≤ c.toNat ∧ c.toNat ≤ 90
  · have h2 := pyLower_toNat_of_range c h
    exact pyLower_of_not_range _ (by omega)
  · rw [pyLower_of_not_range c h, pyLower_of_not_range c h]

lemma notSpace_of_high (c : Char) (h : 33 ≤ c.toNat) : pyIsSpace c = false := by
  simp only [pyIsSpace, Bool.or_eq_false_iff, decide_eq_false_iff_not]
  refine ⟨⟨⟨⟨⟨?_, ?_⟩, ?_⟩, ?_⟩, ?_⟩, ?_⟩ <;> rintro rfl <;> exact absurd h (by decide)

lemma pyIsSpace_pyLower (c : Char) : pyIsSpace (pyLower c) = pyIsSpace c := by
  by_cases h : 65 ≤ c.toNat ∧ c.toNat ≤ 90
  · have h2 := pyLower_toNat_of_range c h
    rw [notSpace_of_high _ (by omega), notSpace_of_high _ (by omega)]
  · rw [pyLower_of_not_range c h]

/-! ### `pyStrip` -/

lemma pyIsSpace_comp_pyLower : (pyIsSpace ∘ pyLower) = pyIsSpace := by
  funext c
  exact pyIsSpace_pyLower c

lemma pyStrip_map_pyLower (l : List Char) :
    pyStrip (l.map pyLower) = (pyStrip l).map pyLower := by
  unfold pyStrip List.rdropWhile
  rw [List.dropWhile_map, pyIsSpace_comp_pyLower, ← List.map_reverse,
    List.dropWhile_map, pyIsSpace_comp_pyLower, ← List.map_reverse]

lemma dropWhile_pyStrip (l : List Char) :
    (pyStrip l).dropWhile pyIsSpace = pyStrip l := by
  unfold pyStrip
  rcases hY : List.rdropWhile pyIsSpace (l.dropWhile pyIsSpace) with _ | ⟨y, ys⟩
  · simp
  · have hpre := List.rdropWhile_prefix pyIsSpace (l.dropWhile pyIsSpace)
    rw [hY] at hpre
    obtain ⟨t, ht⟩ := hpre
    have hne : l.dropWhile pyIsSpace ≠ [] := by
      intro hc
      rw [hc] at ht
      exact absurd ht.symm (by simp)
    have hhead : (l.dropWhile pyIsSpace).head? = some y := by
      rw [← ht]
      rfl
    have hy : pyIsSpace y = false := by
      have h0 := List.head?_dropWhile_not pyIsSpace l
      rw [hhead] at h0
      simpa using h0
    rw [List.dropWhile_cons, hy]
    simp

lemma pyStrip_idem (l : List Char) : pyStrip (pyStrip l) = pyStrip l := by
  conv_lhs => rw [pyStrip, dropWhile_pyStrip]
  rw [pyStrip, List.rdropWhile_idempotent]

lemma pyLower_comp : (pyLower ∘ pyLower) = pyLower := by
  funext c
  exact pyLower_pyLower c

/-! ### Trace-list arithmetic -/

lemma pairFlat_length {α β : Type} (l : List α) (f g : α → β) :
    (l.flatMap fun th => [f th, g th]).length = 2 * l.length := by
  induction l with
  | nil => rfl
  | cons a t ih =>
    simp only [List.flatMap_cons, List.length_append, ih, List.length_cons, List.length_nil]
    omega

lemma mkTraces_length (es : List EdgeRec) :
    (mkTraces es).length = 2 * (allThemes es).length + 3 := by
  simp only [mkTraces, List.length_append, pairFlat_length, List.length_cons,
    List.length_nil]
  omega

lemma set_last_replicate {α : Type} (m : Nat) (a b : α) :
    (List.replicate (m + 1) a).set m b = List.replicate m a ++ [b] := by
  induction m with
  | zero => rfl
  | succ k ih =>
    rw [show k + 1 + 1 = (k + 1) + 1 from rfl, List.replicate_succ, List.set_cons_succ,
      ih, List.replicate_succ]
    rfl

lemma vis_all_eq (es : List EdgeRec) :
    vis_all es =
      true :: true :: (List.replicate (2 * (allThemes es).length) false ++ [true]) := by
  simp only [vis_all, mkTraces_length]
  rw [show 2 * (allThemes es).length + 3 = (2 * (allThemes es).length + 2) + 1 from rfl,
    List.replicate_succ,
    show 2 * (allThemes es).length + 2 = (2 * (allThemes es).length + 1) + 1 from rfl,
    List.replicate_succ]
  rw [List.set_cons_zero, List.set_cons_succ, List.set_cons_zero]
  rw [show 2 * (allThemes es).length + 1 + 1 + 1 - 1 = (2 * (allThemes es).length + 1) + 1
      from rfl,
    List.set_cons_succ, List.set_cons_succ, set_last_replicate]

lemma pairFlat_getElem {α β : Type} (l : List α) (f g : α → β) (i : Nat)
    (h : i < l.length) :
    (l.flatMap fun th => [f th, g th])[2 * i]? = (l[i]?).map f ∧
    (l.flatMap fun th => [f th, g th])[2 * i + 1]? = (l[i]?).map g := by
  induction l generalizing i with
  | nil => exact absurd h (by simp)
  | cons a t ih =>
    cases i with
    | zero => simp [List.flatMap_cons]
    | succ j =>
      have hj : j < t.length := by simpa using h
      rw [List.flatMap_cons]
      have h2 : (2 : Nat) * (j + 1) = 2 + 2 * j := by omega
      rw [h2]
      have hlen : ([f a, g a] : List β).length = 2 := rfl
      constructor
      · rw [List.getElem?_append_right (le_trans (le_of_eq hlen) (by omega)), hlen]
        have e : 2 + 2 * j - 2 = 2 * j := by omega
        rw [e, List.getElem?_cons_succ]
        exact (ih j hj).1
      · rw [List.getElem?_append_right (le_trans (le_of_eq hlen) (by omega)), hlen]
        have e : 2 + 2 * j + 1 - 2 = 2 * j + 1 := by omega
        rw [e, List.getElem?_cons_succ]
        exact (ih j hj).2

lemma allThemes_nodup (es : List EdgeRec) : (allThemes es).Nodup :=
  (List.perm_insertionSort strLe _).nodup_iff.mpr (List.nodup_dedup _)

lemma findIdx_beq_of_nodup (l : List String) (i : Nat) (a : String)
    (hn : l.Nodup) (h : l[i]? = some a) : l.findIdx (fun t => t == a) = i := by
  induction l generalizing i with
  | nil => simp at h
  | cons x xs ih =>
    rcases List.nodup_cons.mp hn with ⟨hx, hxs⟩
    cases i with
    | zero =>
      have hax : x = a := by simpa using h
      subst hax
      simp [List.findIdx_cons]
    | succ j =>
      have hj : xs[j]? = some a := by simpa using h
      have hne : (x == a) = false := by
        have : a ∈ xs := List.getElem?_mem hj
        have : x ≠ a := fun hc => hx (hc ▸ this)
        simpa using this
      rw [List.findIdx_cons, hne]
      simp [ih j hxs hj]

/-! ### Graph-builder lemmas: node years -/

lemma find?_setNode (l : List (String × Int)) (n m : String) (y : Int) :
    (setNode l n y).find? (fun p => p.1 == m) =
      if n = m then some (n, y) else l.find? (fun p => p.1 == m) := by
  induction l with
  | nil =>
    by_cases h : n = m
    · simp [setNode, List.find?, h]
    · have hb : (n == m) = false := by simpa using h
      simp [setNode, List.find?, hb, h]
  | cons p ps ih =>
    by_cases hp : p.1 = n
    · rw [setNode, if_pos hp]
      by_cases h : n = m
      · subst h
        simp [List.find?]
      · have hpm : (p.1 == m) = false := by
          simp only [beq_eq_false_iff_ne]
          rw [hp]
          exact h
        have hb : (n == m) = false := by simpa using h
        simp [List.find?, h, hpm, hb]
    · rw [setNode, if_neg hp]
      by_cases hm : p.1 = m
      · by_cases h : n = m
        · exact absurd (h ▸ hm) hp
        · simp [List.find?, hm, h]
      · have hpm : (p.1 == m) = false := by simpa using hm
        simp only [List.find?, hpm]
        exact ih

lemma yearOf_addRecord (G : Graph) (r : EdgeRec) (n : String) :
    yearOf (addRecord G r) n =
      if r.tgt = n then some r.ty
      else if r.src = n then some r.sy
      else yearOf G n := by
  show ((setNode (setNode G.nodes r.src r.sy) r.tgt r.ty).find?
      (fun p => p.1 == n)).map (fun p => p.2) = _
  rw [find?_setNode]
  by_cases ht : r.tgt = n
  · simp [ht]
  · rw [if_neg ht, find?_setNode]
    by_cases hs : r.src = n
    · simp [ht, hs]
    · simp [yearOf, ht, hs]

lemma lastSeenYear_nil (n : String) : lastSeenYear [] n = none := rfl

lemma lastSeenYear_cons (r : EdgeRec) (es : List EdgeRec) (n : String) :
    lastSeenYear (r :: es) n =
      (lastSeenYear es n).or
        (if r.tgt = n then some r.ty else if r.src = n then some r.sy else none) := by
  rw [lastSeenYear, List.reverse_cons, List.find?_append]
  cases h : es.reverse.find? (touches n) with
  | some p => simp [lastSeenYear, h]
  | none =>
    simp only [lastSeenYear, h, Option.none_or, Option.map, List.find?]
    by_cases ht : r.tgt = n
    · have : touches n r = true := by simp [touches, ht]
      simp [this, ht]
    · by_cases hs : r.src = n
      · have : touches n r = true := by simp [touches, hs]
        simp [this, ht, hs]
      · have : touches n r = false := by simp [touches, ht, hs]
        simp [this, ht, hs]

lemma yearOf_foldl (es : List EdgeRec) (G : Graph) (n : String) :
    yearOf (es.foldl addRecord G) n = (lastSeenYear es n).or (yearOf G n) := by
  induction es generalizing G with
  | nil => simp [lastSeenYear_nil]
  | cons r es ih =>
    rw [List.foldl_cons, ih, yearOf_addRecord, lastSeenYear_cons]
    cases h : lastSeenYear es n with
    | some y => simp
    | none =>
      by_cases ht : r.tgt = n
      · simp [ht]
      · by_cases hs : r.src = n <;> simp [ht, hs]

lemma yearOf_build_graph (es : List EdgeRec) (n : String) :
    yearOf (build_graph es) n = lastSeenYear es n := by
  rw [build_graph, yearOf_foldl]
  simp [yearOf, emptyGraph]

/-! ### Graph-builder lemmas: node-name uniqueness -/

lemma setNode_names (l : List (String × Int)) (n : String) (y : Int) :
    (setNode l n y).map Prod.fst =
      if l.any (fun p => p.1 == n) then l.map Prod.fst else l.map Prod.fst ++ [n] := by
  induction l with
  | nil => simp [setNode]
  | cons p ps ih =>
    by_cases hp : p.1 = n
    · rw [setNode, if_pos hp]
      have : (p.1 == n) = true := by simpa using hp
      simp [List.any_cons, this, hp]
    · rw [setNode, if_neg hp]
      have hb : (p.1 == n) = false := by simpa using hp
      simp only [List.any_cons, hb, Bool.false_or, List.map_cons, ih]
      by_cases h : ps.any (fun q => q.1 == n) <;> simp [h]

lemma nodup_setNode_names (l : List (String × Int)) (n : String) (y : Int)
    (h : (l.map Prod.fst).Nodup) : ((setNode l n y).map Prod.fst).Nodup := by
  rw [setNode_names]
  by_cases ha : l.any (fun p => p.1 == n)
  · rwa [if_pos ha]
  · rw [if_neg ha]
    refine (List.perm_append_singleton n (l.map Prod.fst)).nodup_iff.mpr ?_
    refine List.nodup_cons.mpr ⟨?_, h⟩
    intro hmem
    rcases List.mem_map.mp hmem with ⟨p, hp, hpn⟩
    exact ha (List.any_eq_true.mpr ⟨p, hp, by simpa using hpn⟩)

lemma build_graph_names_nodup (es : List EdgeRec) :
    ((build_graph es).nodes.map Prod.fst).Nodup := by
  rw [build_graph]
  have h : ∀ G : Graph, (G.nodes.map Prod.fst).Nodup →
      ((es.foldl addRecord G).nodes.map Prod.fst).Nodup := by
    induction es with
    | nil => intro G hG; exact hG
    | cons r es ih =>
      intro G hG
      rw [List.foldl_cons]
      exact ih _ (nodup_setNode_names _ _ _ (nodup_setNode_names _ _ _ hG))
  exact h emptyGraph (by simp [emptyGraph])

/-! ### Stability of the year sort -/

lemma orderedInsert_filter_key (a : String × Int) (s : List (String × Int)) (k : Int) :
    (List.orderedInsert nodeLe a s).filter (fun p => p.2 == k) =
      if a.2 = k then a :: s.filter (fun p => p.2 == k)
      else s.filter (fun p => p.2 == k) := by
  induction s with
  | nil => by_cases h : a.2 = k <;> simp [List.orderedInsert, h]
  | cons b s ih =>
    rw [List.orderedInsert]
    by_cases hle : nodeLe a b
    · rw [if_pos hle]
      by_cases h : a.2 = k <;> simp [List.filter_cons, h]
    · rw [if_neg hle]
      have hblt : b.2 < a.2 := by
        simp only [nodeLe, not_le] at hle
        exact hle
      by_cases h : a.2 = k
      · have hb : (b.2 == k) = false := by
          simp only [beq_eq_false_iff_ne]
          omega
        simp [List.filter_cons, hb, ih, h]
      · simp [List.filter_cons, ih, h]

lemma insertionSort_filter_key (l : List (String × Int)) (k : Int) :
    (List.insertionSort nodeLe l).filter (fun p => p.2 == k) =
      l.filter (fun p => p.2 == k) := by
  induction l with
  | nil => rfl
  | cons a l ih =>
    rw [List.insertionSort, orderedInsert_filter_key]
    by_cases h : a.2 = k
    · have hb : (a.2 == k) = true := by simpa using h
      simp [List.filter_cons, hb, ih, h]
    · have hb : (a.2 == k) = false := by simpa using h
      simp [List.filter_cons, hb, ih, h]

/-! ### Locating a node in a name-keyed list -/

lemma mem_eq_of_nodup_names (l : List (String × Int))
    (hn : (l.map Prod.fst).Nodup) (p q : String × Int)
    (hp : p ∈ l) (hq : q ∈ l) (hname : p.1 = q.1) : p = q := by
  induction l with
  | nil => cases hp
  | cons a t ih =>
    have hn2 : a.1 ∉ t.map Prod.fst ∧ (t.map Prod.fst).Nodup := by
      rw [List.map_cons] at hn
      exact List.nodup_cons.mp hn
    rcases List.mem_cons.mp hp with hp1 | hp1 <;> rcases List.mem_cons.mp hq with hq1 | hq1
    · rw [hp1, hq1]
    · exfalso
      have h1 : a.1 = q.1 := by rw [← hp1]; exact hname
      have h2 : q.1 ∈ t.map Prod.fst := List.mem_map_of_mem Prod.fst hq1
      rw [← h1] at h2
      exact hn2.1 h2
    · exfalso
      have h1 : p.1 = a.1 := by rw [hq1] at hname; exact hname
      have h2 : p.1 ∈ t.map Prod.fst := List.mem_map_of_mem Prod.fst hp1
      rw [h1] at h2
      exact hn2.1 h2
    · exact ih hn2.2 hp1 hq1

lemma findIdx_getElem_name (l : List (String × Int)) (n : String) (yr : Int)
    (hmem : (n, yr) ∈ l) (hn : (l.map Prod.fst).Nodup) :
    l[l.findIdx (fun q => q.1 == n)]? = some (n, yr) := by
  induction l with
  | nil => cases hmem
  | cons p ps ih =>
    have hn2 : p.1 ∉ ps.map Prod.fst ∧ (ps.map Prod.fst).Nodup := by
      rw [List.map_cons] at hn
      exact List.nodup_cons.mp hn
    by_cases hhead : p.1 = n
    · have : p = (n, yr) :=
        mem_eq_of_nodup_names (p :: ps) hn p (n, yr) (by simp) hmem hhead
      rw [List.findIdx_cons]
      have hb : (p.1 == n) = true := by simpa using hhead
      simp [hb, this]
    · have hmem2 : (n, yr) ∈ ps := by
        rcases List.mem_cons.mp hmem with h | h
        · exact absurd (congrArg Prod.fst h.symm) hhead
        · exact h
      rw [List.findIdx_cons]
      have hb : (p.1 == n) = false := by simpa using hhead
      simp only [hb, cond_false]
      rw [List.getElem?_cons_succ]
      exact ih hmem2 hn2.2

/-! ### Graph-builder lemmas: edge overwrite and uniqueness -/

lemma samePair_iff (a b : String × String) :
    samePair a b = true ↔ ((a.1 = b.1 ∧ a.2 = b.2) ∨ (a.1 = b.2 ∧ a.2 = b.1)) := by
  simp [samePair, Bool.or_eq_true, Bool.and_eq_true, beq_iff_eq]

lemma samePair_symm (a b : String × String) (h : samePair a b = true) :
    samePair b a = true := by
  rw [samePair_iff] at h ⊢
  tauto

lemma samePair_trans (a b c : String × String) (hab : samePair a b = true)
    (hbc : samePair b c = true) : samePair a c = true := by
  rw [samePair_iff] at hab hbc ⊢
  rcases hab with ⟨h1, h2⟩ | ⟨h1, h2⟩ <;> rcases hbc with ⟨h3, h4⟩ | ⟨h3, h4⟩ <;>
    simp [h1, h2, h3, h4]

lemma find?_setEdge (l : List (String × String × EdgeAttrs)) (a b u v : String)
    (d : EdgeAttrs) :
    ((setEdge l a b d).find? (fun e => samePair (e.1, e.2.1) (u, v))).map
        (fun e => e.2.2) =
      if samePair (a, b) (u, v) then some d
      else (l.find? (fun e => samePair (e.1, e.2.1) (u, v))).map (fun e => e.2.2) := by
  induction l with
  | nil =>
    by_cases hab : samePair (a, b) (u, v) <;> simp [setEdge, List.find?, hab]
  | cons e es2 ih =>
    by_cases he : samePair (e.1, e.2.1) (a, b)
    · rw [setEdge, if_pos he]
      by_cases hab : samePair (a, b) (u, v)
      · have hev : samePair (e.1, e.2.1) (u, v) = true := samePair_trans _ _ _ he hab
        simp [List.find?, hev, hab]
      · have hev : samePair (e.1, e.2.1) (u, v) = false := by
          by_contra hc
          have hc2 : samePair (e.1, e.2.1) (u, v) = true := by
            revert hc
            cases samePair (e.1, e.2.1) (u, v) <;> simp
          exact hab (samePair_trans _ _ _ (samePair_symm _ _ he) hc2)
        simp [List.find?, hev, hab]
    · rw [setEdge, if_neg he]
      by_cases hev : samePair (e.1, e.2.1) (u, v)
      · have hab : samePair (a, b) (u, v) = false := by
          by_contra hc
          have hc2 : samePair (a, b) (u, v) = true := by
            revert hc
            cases samePair (a, b) (u, v) <;> simp
          exact he (samePair_trans _ _ _ hev (samePair_symm _ _ hc2))
        simp [List.find?, hev, hab]
      · simp only [List.find?, hev]
        exact ih

lemma edgeAttrsOf_addRecord (G : Graph) (r : EdgeRec) (u v : String) :
    edgeAttrsOf (addRecord G r) u v =
      if samePair (r.src, r.tgt) (u, v) then some ⟨r.w, r.themes, r.note⟩
      else edgeAttrsOf G u v :=
  find?_setEdge G.edges r.src r.tgt u v ⟨r.w, r.themes, r.note⟩

lemma lastPairAttrs_cons (r : EdgeRec) (es : List EdgeRec) (u v : String) :
    lastPairAttrs (r :: es) u v =
      (lastPairAttrs es u v).or
        (if samePair (r.src, r.tgt) (u, v) then some ⟨r.w, r.themes, r.note⟩
         else none) := by
  rw [lastPairAttrs, List.reverse_cons, List.find?_append]
  cases h : es.reverse.find? (fun r2 => samePair (r2.src, r2.tgt) (u, v)) with
  | some p => simp [lastPairAttrs, h]
  | none =>
    simp only [lastPairAttrs, h, Option.none_or, Option.map, List.find?]
    by_cases hr : samePair (r.src, r.tgt) (u, v) <;> simp [hr]

lemma edgeAttrsOf_foldl (es : List EdgeRec) (G : Graph) (u v : String) :
    edgeAttrsOf (es.foldl addRecord G) u v =
      (lastPairAttrs es u v).or (edgeAttrsOf G u v) := by
  induction es generalizing G with
  | nil => simp [lastPairAttrs]
  | cons r es ih =>
    rw [List.foldl_cons, ih, edgeAttrsOf_addRecord, lastPairAttrs_cons]
    cases h : lastPairAttrs es u v with
    | some d => simp
    | none => by_cases hr : samePair (r.src, r.tgt) (u, v) <;> simp [hr]

lemma edgeAttrsOf_build_graph (es : List EdgeRec) (u v : String) :
    edgeAttrsOf (build_graph es) u v = lastPairAttrs es u v := by
  rw [build_graph, edgeAttrsOf_foldl]
  simp [edgeAttrsOf, emptyGraph]

lemma countP_setEdge (l : List (String × String × EdgeAttrs)) (a b u v : String)
    (d : EdgeAttrs) :
    (setEdge l a b d).countP (fun e => samePair (e.1, e.2.1) (u, v)) =
      if l.any (fun e => samePair (e.1, e.2.1) (a, b)) then
        l.countP (fun e => samePair (e.1, e.2.1) (u, v))
      else l.countP (fun e => samePair (e.1, e.2.1) (u, v)) +
        (if samePair (a, b) (u, v) then 1 else 0) := by
  induction l with
  | nil =>
    by_cases hab : samePair (a, b) (u, v) <;>
      simp [setEdge, List.countP_cons, List.countP_nil, hab]
  | cons e es2 ih =>
    by_cases he : samePair (e.1, e.2.1) (a, b)
    · rw [setEdge, if_pos he]
      have hany : (e :: es2).any (fun e2 => samePair (e2.1, e2.2.1) (a, b)) = true := by
        simp [List.any_cons, he]
      rw [if_pos hany]
      simp [List.countP_cons]
    · rw [setEdge, if_neg he]
      have hany : (e :: es2).any (fun e2 => samePair (e2.1, e2.2.1) (a, b)) =
          es2.any (fun e2 => samePair (e2.1, e2.2.1) (a, b)) := by
        simp [List.any_cons, he]
      rw [List.countP_cons, List.countP_cons, ih, hany]
      by_cases h2 : es2.any (fun e2 => samePair (e2.1, e2.2.1) (a, b)) <;>
        simp [h2] <;> omega

lemma countP_zero_of_not_any (l : List (String × String × EdgeAttrs)) (a b u v : String)
    (hn : ¬ l.any (fun e => samePair (e.1, e.2.1) (a, b)) = true)
    (hab : samePair (a, b) (u, v) = true) :
    l.countP (fun e => samePair (e.1, e.2.1) (u, v)) = 0 := by
  rw [List.countP_eq_zero]
  intro e hmem
  intro hc
  exact hn (List.any_eq_true.mpr
    ⟨e, hmem, samePair_trans _ _ _ hc (samePair_symm _ _ hab)⟩)

lemma countP_pos_of_any (l : List (String × String × EdgeAttrs)) (a b u v : String)
    (hn : l.any (fun e => samePair (e.1, e.2.1) (a, b)) = true)
    (hab : samePair (a, b) (u, v) = true) :
    1 ≤ l.countP (fun e => samePair (e.1, e.2.1) (u, v)) := by
  rcases List.any_eq_true.mp hn with ⟨e, hmem, he⟩
  calc 1 = [e].countP (fun e2 => samePair (e2.1, e2.2.1) (u, v)) := by
        simp [List.countP_cons, samePair_trans _ _ _ he hab]
    _ ≤ l.countP (fun e2 => samePair (e2.1, e2.2.1) (u, v)) :=
        List.Sublist.countP_le _ ((List.singleton_sublist).mpr hmem)

lemma countP_foldl_invariant (es : List EdgeRec) (u v : String) :
    ∀ G : Graph,
      G.edges.countP (fun e => samePair (e.1, e.2.1) (u, v)) ≤ 1 →
      ((es.foldl addRecord G).edges.countP (fun e => samePair (e.1, e.2.1) (u, v)) ≤ 1 ∧
        (((∃ r ∈ es, samePair (r.src, r.tgt) (u, v) = true) ∨
            G.edges.countP (fun e => samePair (e.1, e.2.1) (u, v)) = 1) →
          (es.foldl addRecord G).edges.countP (fun e => samePair (e.1, e.2.1) (u, v))
            = 1)) := by
  induction es with
  | nil =>
    intro G hG
    refine ⟨hG, fun h => ?_⟩
    rcases h with ⟨r, hr, _⟩ | h
    · cases hr
    · exact h
  | cons r es ih =>
    intro G hG
    have hstep : (addRecord G r).edges.countP (fun e => samePair (e.1, e.2.1) (u, v)) =
        if G.edges.any (fun e => samePair (e.1, e.2.1) (r.src, r.tgt)) then
          G.edges.countP (fun e => samePair (e.1, e.2.1) (u, v))
        else G.edges.countP (fun e => samePair (e.1, e.2.1) (u, v)) +
          (if samePair (r.src, r.tgt) (u, v) then 1 else 0) :=
      countP_setEdge G.edges r.src r.tgt u v ⟨r.w, r.themes, r.note⟩
    have hle : (addRecord G r).edges.countP (fun e => samePair (e.1, e.2.1) (u, v)) ≤ 1 := by
      rw [hstep]
      by_cases hany : G.edges.any (fun e => samePair (e.1, e.2.1) (r.src, r.tgt))
      · rwa [if_pos hany]
      · rw [if_neg hany]
        by_cases hr : samePair (r.src, r.tgt) (u, v)
        · rw [countP_zero_of_not_any G.edges r.src r.tgt u v hany hr, if_pos hr]
        · simpa [hr] using hG
    rw [List.foldl_cons]
    refine ⟨(ih (addRecord G r) hle).1, fun h => ?_⟩
    refine (ih (addRecord G r) hle).2 ?_
    rcases h with ⟨r2, hr2, hr2p⟩ | h
    · rcases List.mem_cons.mp hr2 with hr21 | hr21
      · right
        subst hr21
        rw [hstep]
        by_cases hany : G.edges.any (fun e => samePair (e.1, e.2.1) (r2.src, r2.tgt))
        · rw [if_pos hany]
          have h1 := countP_pos_of_any G.edges r2.src r2.tgt u v hany hr2p
          omega
        · rw [if_neg hany, countP_zero_of_not_any G.edges r2.src r2.tgt u v hany hr2p,
            if_pos hr2p]
      · exact Or.inl ⟨r2, hr21, hr2p⟩
    · right
      rw [hstep]
      by_cases hany : G.edges.any (fun e => samePair (e.1, e.2.1) (r.src, r.tgt))
      · rwa [if_pos hany]
      · rw [if_neg hany]
        by_cases hr : samePair (r.src, r.tgt) (u, v)
        · rw [countP_zero_of_not_any G.edges r.src r.tgt u v hany hr] at h
          cases h
        · simpa [hr] using h

/-! ### Hover-text containment -/

lemma mem_brJoin_isInfix (s : String) (l : List String) (h : s ∈ l) :
    s.data <:+: (brJoin l).data := by
  induction l with
  | nil => cases h
  | cons a t ih =>
    cases t with
    | nil =>
      have hs : s = a := by simpa using h
      subst hs
      exact List.infix_rfl
    | cons b t2 =>
      rcases List.mem_cons.mp h with h1 | h1
      · subst h1
        refine ⟨[], ("<br>" ++ brJoin (b :: t2)).data, ?_⟩
        simp [brJoin]
      · rcases ih h1 with ⟨s1, t1, hst⟩
        refine ⟨(a ++ "<br>").data ++ s1, t1, ?_⟩
        simp only [brJoin, String.data_append, List.append_assoc]
        rw [← List.append_assoc s1 s.data t1, hst]

lemma accepted_block_isInfix (G : Graph) (posf : String → Int × Int)
    (filt : String → String → EdgeAttrs → Bool) (w : Option Int) (sfx : String)
    (e : String × String × EdgeAttrs) (h : e ∈ acceptedEdges G filt w) :
    isSubstr (edgeBlock e.1 e.2.1 e.2.2) (traceText (make_edge_trace G posf filt w sfx)) := by
  have hx : (acceptedEdges G filt w).flatMap
      (fun e2 => [some (posf e2.1).1, some (posf e2.2.1).1, none]) ≠ [] := by
    cases hacc : acceptedEdges G filt w with
    | nil => rw [hacc] at h; cases h
    | cons a rest => simp [List.flatMap_cons]
  simp only [make_edge_trace]
  rw [if_neg hx]
  have ht : ∀ (x y : List (Option Int)) (lw : Rat) (t : String) (op : Option Rat)
      (vis : Bool) (nm : String), traceText (Trace.edgeT x y lw t op vis nm) = t :=
    fun _ _ _ _ _ _ _ => rfl
  rw [ht]
  exact mem_brJoin_isInfix _ _ (List.mem_map_of_mem _ h)

/-! ## Claims -/

/-- C8: theme normalization is idempotent — `normalize_theme` applied to an
already-normalized string returns it unchanged. -/
theorem normalize_theme_idempotent (s : String) :
    normalize_theme (normalize_theme s) = normalize_theme s := by
  show (⟨(pyStrip ((pyStrip s.data).map pyLower)).map pyLower⟩ : String) = _
  rw [pyStrip_map_pyLower, pyStrip_idem, List.map_map, pyLower_comp]
  rfl

/-- C4: for every input, the "All themes" visibility vector has the same
length as the trace list and is true exactly at index 0, index 1, and the
last index (the node trace) — three true entries in total. -/
theorem vis_all_three_true (es : List EdgeRec) :
    (vis_all es).length = (mkTraces es).length ∧
    (vis_all es).count true = 3 ∧
    ∀ i, i < (mkTraces es).length →
      ((vis_all es)[i]? = some true ↔
        (i = 0 ∨ i = 1 ∨ i = (mkTraces es).length - 1)) := by
  rw [vis_all_eq, mkTraces_length]
  refine ⟨?_, ?_, ?_⟩
  · simp only [List.length_cons, List.length_append, List.length_replicate,
      List.length_nil]
  · simp [List.count_cons, List.count_append, List.count_replicate]
  · intro i hi
    match i with
    | 0 => simp
    | 1 => simp
    | (j + 2) =>
      rw [List.getElem?_cons_succ, List.getElem?_cons_succ]
      rcases Nat.lt_or_ge j (2 * (allThemes es).length) with hj | hj
      · rw [List.getElem?_append_left (by simpa using hj), List.getElem?_replicate,
          if_pos hj]
        simp only [Option.some.injEq]
        constructor
        · intro hc
          exact absurd hc (by simp)
        · intro hc
          omega
      · have hje : j = 2 * (allThemes es).length := by omega
        subst hje
        rw [List.getElem?_append_right (by simp), List.length_replicate, Nat.sub_self]
        simp

/-- C1: for every non-empty record list the trace list has length
`2 + 2·(number of distinct normalized themes) + 1`, ordered as the two
aggregate traces (weight 2 then weight 3), a weight-2/weight-3 pair for
each distinct theme in sorted order, and the node-marker trace last. -/
theorem trace_count_and_order (es : List EdgeRec) (hne : es ≠ []) :
    (mkTraces es).length = 2 + 2 * (allThemes es).length + 1 ∧
    (mkTraces es)[0]? =
      some (make_edge_trace (build_graph es) (posOf (build_graph es)) allPass
        (some 2) "_all_w2") ∧
    (mkTraces es)[1]? =
      some (make_edge_trace (build_graph es) (posOf (build_graph es)) allPass
        (some 3) "_all_w3") ∧
    (∀ i, i < (allThemes es).length →
      ∃ th, (allThemes es)[i]? = some th ∧
        (mkTraces es)[2 + 2 * i]? =
          some (make_edge_trace (build_graph es) (posOf (build_graph es)) (themeFilt th)
            (some 2) ("_" ++ th ++ "_w2")) ∧
        (mkTraces es)[2 + 2 * i + 1]? =
          some (make_edge_trace (build_graph es) (posOf (build_graph es)) (themeFilt th)
            (some 3) ("_" ++ th ++ "_w3"))) ∧
    (mkTraces es)[(mkTraces es).length - 1]? = some (node_trace (build_graph es)) := by
  have hd : mkTraces es =
      ([make_edge_trace (build_graph es) (posOf (build_graph es)) allPass (some 2) "_all_w2",
        make_edge_trace (build_graph es) (posOf (build_graph es)) allPass (some 3) "_all_w3"]
        ++ (allThemes es).flatMap (fun th =>
            [make_edge_trace (build_graph es) (posOf (build_graph es)) (themeFilt th)
               (some 2) ("_" ++ th ++ "_w2"),
             make_edge_trace (build_graph es) (posOf (build_graph es)) (themeFilt th)
               (some 3) ("_" ++ th ++ "_w3")]))
        ++ [node_trace (build_graph es)] := rfl
  refine ⟨by rw [mkTraces_length]; omega, by rw [hd]; simp, by rw [hd]; simp, ?_, ?_⟩
  · intro i hi
    have hp := pairFlat_getElem (allThemes es)
      (fun th => make_edge_trace (build_graph es) (posOf (build_graph es))
        (themeFilt th) (some 2) ("_" ++ th ++ "_w2"))
      (fun th => make_edge_trace (build_graph es) (posOf (build_graph es))
        (themeFilt th) (some 3) ("_" ++ th ++ "_w3")) i hi
    refine ⟨(allThemes es)[i], List.getElem?_eq_getElem hi, ?_, ?_⟩
    · rw [hd, List.getElem?_append_left
          (by simp only [List.length_append, List.length_cons, List.length_nil,
            pairFlat_length]; omega),
        List.getElem?_append_right (by simp only [List.length_cons, List.length_nil]; omega),
        List.length_cons, List.length_cons, List.length_nil]
      have e : 2 + 2 * i - (0 + 1 + 1) = 2 * i := by omega
      rw [e, hp.1, List.getElem?_eq_getElem hi]
      rfl
    · rw [hd, List.getElem?_append_left
          (by simp only [List.length_append, List.length_cons, List.length_nil,
            pairFlat_length]; omega),
        List.getElem?_append_right (by simp only [List.length_cons, List.length_nil]; omega),
        List.length_cons, List.length_cons, List.length_nil]
      have e : 2 + 2 * i + 1 - (0 + 1 + 1) = 2 * i + 1 := by omega
      rw [e, hp.2, List.getElem?_eq_getElem hi]
      rfl
  · rw [mkTraces_length, hd, List.getElem?_append_right
        (by simp only [List.length_append, List.length_cons, List.length_nil,
          pairFlat_length]; omega)]
    simp only [List.length_append, List.length_cons, List.length_nil, pairFlat_length]
    have e : 2 * (allThemes es).length + 3 - 1 - (0 + 1 + 1 + 2 * (allThemes es).length)
        = 0 := by omega
    rw [e]
    rfl

/-- Witness for C1: the trace-count identity at the two-row scenario input. -/
theorem trace_count_and_order_w :
    (mkTraces scenarioRows).length = 2 + 2 * (allThemes scenarioRows).length + 1 :=
  (trace_count_and_order scenarioRows (by decide)).1

/-- C2: every node of the built graph is placed at
`x = its last-seen year` (last-write-wins over the record sequence) and
`y = its rank in the stable ascending year sort of the node list` — the
rank list is a permutation of the nodes, sorted by year, and preserves the
relative order of equal-year nodes (the filter identity below). -/
theorem layout_positions (es : List EdgeRec) (n : String)
    (hmem : n ∈ (build_graph es).nodes.map Prod.fst) :
    ∃ x rank : Int,
      posOf (build_graph es) n = (x, rank) ∧
      some x = lastSeenYear es n ∧
      0 ≤ rank ∧
      ∃ sorted : List (String × Int),
        sorted.Perm (build_graph es).nodes ∧
        List.Sorted nodeLe sorted ∧
        (∀ k : Int, sorted.filter (fun p => p.2 == k)
            = (build_graph es).nodes.filter (fun p => p.2 == k)) ∧
        sorted[rank.toNat]? = some (n, x) := by
  rcases List.mem_map.mp hmem with ⟨p0, hp0, hp0n⟩
  have hsome : ((build_graph es).nodes.find? (fun p => p.1 == n)).isSome :=
    List.find?_isSome.mpr ⟨p0, hp0, by simpa using hp0n⟩
  rcases Option.isSome_iff_exists.mp hsome with ⟨pr, hpr⟩
  have hprn : pr.1 = n := by simpa using List.find?_some hpr
  have hprmem : pr ∈ (build_graph es).nodes := List.mem_of_find?_eq_some hpr
  refine ⟨pr.2, ((sortedNodes (build_graph es)).findIdx (fun q => q.1 == n) : Int),
    ?_, ?_, by exact_mod_cast Int.ofNat_nonneg _, ?_⟩
  · show (((positions (build_graph es)).find? (fun q => q.1 == n)).map
        (fun q => q.2)).getD (0, 0) = _
    rw [positions, List.find?_map]
    have hcongr : ((build_graph es).nodes.find?
        ((fun (q : String × Int × Int) => q.1 == n) ∘
          (fun p => (p.1, (p.2, ((sortedNodes (build_graph es)).findIdx
            (fun q => q.1 == p.1) : Int))))))
        = (build_graph es).nodes.find? (fun p => p.1 == n) := rfl
    rw [hcongr, hpr]
    simp only [Option.map_some', Option.getD_some]
    rw [hprn]
  · rw [← yearOf_build_graph]
    show some pr.2 = yearOf (build_graph es) n
    rw [yearOf, hpr]
    rfl
  · refine ⟨sortedNodes (build_graph es), List.perm_insertionSort nodeLe _,
      List.sorted_insertionSort nodeLe _, insertionSort_filter_key _, ?_⟩
    rw [Int.toNat_ofNat]
    have hmem2 : (n, pr.2) ∈ sortedNodes (build_graph es) :=
      (List.perm_insertionSort nodeLe _).mem_iff.mpr (by rw [← hprn]; exact hprmem)
    have hnodup2 : ((sortedNodes (build_graph es)).map Prod.fst).Nodup := by
      refine (((List.perm_insertionSort nodeLe
        (build_graph es).nodes).map Prod.fst).nodup_iff).mpr ?_
      exact build_graph_names_nodup es
    exact findIdx_getElem_name _ n pr.2 hmem2 hnodup2

/-- Witness for C2 at the scenario input, node `B`. -/
theorem layout_positions_w :
    ∃ x rank : Int,
      posOf (build_graph scenarioRows) "B" = (x, rank) ∧
      some x = lastSeenYear scenarioRows "B" ∧
      0 ≤ rank ∧
      ∃ sorted : List (String × Int),
        sorted.Perm (build_graph scenarioRows).nodes ∧
        List.Sorted nodeLe sorted ∧
        (∀ k : Int, sorted.filter (fun p => p.2 == k)
            = (build_graph scenarioRows).nodes.filter (fun p => p.2 == k)) ∧
        sorted[rank.toNat]? = some ("B", x) :=
  layout_positions scenarioRows "B" (by decide)

/-- C3: a filter/weight combination that accepts zero edges still produces
a trace — the single invisible placeholder point — and the per-theme traces
are always present in the trace list, never omitted. -/
theorem empty_filter_placeholder :
    (∀ (G : Graph) (posf : String → Int × Int)
        (filt : String → String → EdgeAttrs → Bool) (w : Option Int) (sfx : String),
      acceptedEdges G filt w = [] →
        make_edge_trace G posf filt w sfx =
          Trace.edgeT [none] [none] 1 "" none false ("edges" ++ sfx)) ∧
    (∀ (es : List EdgeRec) (th : String), th ∈ allThemes es →
        make_edge_trace (build_graph es) (posOf (build_graph es)) (themeFilt th)
            (some 2) ("_" ++ th ++ "_w2") ∈ mkTraces es ∧
        make_edge_trace (build_graph es) (posOf (build_graph es)) (themeFilt th)
            (some 3) ("_" ++ th ++ "_w3") ∈ mkTraces es) := by
  constructor
  · intro G posf filt w sfx h
    unfold make_edge_trace
    rw [h]
    rfl
  · intro es th hth
    constructor <;>
      · show _ ∈ mkTraces es
        unfold mkTraces
        refine List.mem_append.mpr (Or.inl (List.mem_append.mpr (Or.inr ?_)))
        refine List.mem_flatMap.mpr ⟨th, hth, ?_⟩
        simp

/-- Witness for C3 at a concrete zero-match combination. -/
theorem empty_filter_placeholder_w :
    make_edge_trace (build_graph scenarioRows) (posOf (build_graph scenarioRows))
        (themeFilt "zzz") (some 2) "_zzz_w2" =
      Trace.edgeT [none] [none] 1 "" none false ("edges" ++ "_zzz_w2") :=
  empty_filter_placeholder.1 (build_graph scenarioRows) (posOf (build_graph scenarioRows))
    (themeFilt "zzz") (some 2) "_zzz_w2" (by decide)

/-- C5: for the theme at sorted index `i`, the per-theme visibility vector
matches the trace list in length and is true exactly at positions `2+2i`,
`2+2i+1`, and the last position (the node trace). -/
theorem vis_theme_indices (es : List EdgeRec) (i : Nat) (theme : String)
    (hth : (allThemes es)[i]? = some theme) :
    (vis_for_theme es theme).length = (mkTraces es).length ∧
    ∀ j, j < (mkTraces es).length →
      ((vis_for_theme es theme)[j]? = some true ↔
        (j = 2 + 2 * i ∨ j = 2 + 2 * i + 1 ∨ j = (mkTraces es).length - 1)) := by
  have hi : i < (allThemes es).length := (List.getElem?_eq_some_iff.mp hth).1
  have hidx : (allThemes es).findIdx (fun t => t == theme) = i :=
    findIdx_beq_of_nodup _ _ _ (allThemes_nodup es) hth
  have hn : (mkTraces es).length = 2 * (allThemes es).length + 3 := mkTraces_length es
  simp only [vis_for_theme, hidx]
  constructor
  · simp
  · intro j hj
    by_cases hc : j = (mkTraces es).length - 1
    · subst hc
      rw [List.getElem?_set_self (by simp; omega)]
      simp
    · rw [List.getElem?_set_ne (Ne.symm hc)]
      by_cases hb : j = 2 + i * 2 + 1
      · subst hb
        rw [List.getElem?_set_self (by simp; omega)]
        simp only [Option.some.injEq, true_iff]
        omega
      · rw [List.getElem?_set_ne (fun hh => hb hh.symm)]
        by_cases ha : j = 2 + i * 2
        · subst ha
          rw [List.getElem?_set_self (by simp; omega)]
          simp only [Option.some.injEq, true_iff]
          omega
        · rw [List.getElem?_set_ne (fun hh => ha hh.symm), List.getElem?_replicate,
            if_pos hj]
          refine ⟨fun h => by simp at h, fun h => (by omega : False).elim⟩

/-- Witness for C5 at the scenario input, theme `freedom` (sorted index 1). -/
theorem vis_theme_indices_w :
    (vis_for_theme scenarioRows "freedom").length = (mkTraces scenarioRows).length :=
  (vis_theme_indices scenarioRows 1 "freedom" (by decide)).1

/-- Counterexample to C7 as stated: in `dupRows` the pair `A`–`B` appears
exactly twice (rows 1 and 2), and the retained edge does carry the second
row's attributes, but endpoint `A`'s year attribute is `1900` — the year of
the *third* row, which mentions `A` with a different pair — not the later
duplicate row's year `1805`. -/
theorem duplicate_pair_counterexample :
    edgeAttrsOf (build_graph dupRows) "A" "B" = some ⟨3, ["x"], "n2"⟩ ∧
    yearOf (build_graph dupRows) "A" = some 1900 ∧
    ¬ yearOf (build_graph dupRows) "A" = some 1805 := by
  decide

/-- C7 (amended): whenever some record carries the unordered pair `u`–`v`,
the built graph has exactly one edge on that pair, its weight/themes/note
are exactly those of the last record with that pair (full overwrite, no
merging), and each endpoint's year attribute is that title's last-seen year
across all records (which is the later duplicate record's year exactly when
no later record mentions the title). -/
theorem duplicate_pair_overwrite_amended (es : List EdgeRec) (u v : String)
    (h : ∃ r ∈ es, samePair (r.src, r.tgt) (u, v) = true) :
    (build_graph es).edges.countP (fun e => samePair (e.1, e.2.1) (u, v)) = 1 ∧
    edgeAttrsOf (build_graph es) u v = lastPairAttrs es u v ∧
    yearOf (build_graph es) u = lastSeenYear es u ∧
    yearOf (build_graph es) v = lastSeenYear es v := by
  refine ⟨?_, edgeAttrsOf_build_graph es u v, yearOf_build_graph es u,
    yearOf_build_graph es v⟩
  have h0 : (emptyGraph.edges.countP (fun e => samePair (e.1, e.2.1) (u, v))) ≤ 1 := by
    simp [emptyGraph]
  exact (countP_foldl_invariant es u v emptyGraph h0).2 (Or.inl h)

/-- Witness for the amended C7 at `dupRows`, pair `A`–`B`. -/
theorem duplicate_pair_overwrite_amended_w :
    (build_graph dupRows).edges.countP (fun e => samePair (e.1, e.2.1) ("A", "B")) = 1 :=
  (duplicate_pair_overwrite_amended dupRows "A" "B"
    ⟨⟨"A", 1800, "B", 1810, 2, [], ""⟩, by decide, by decide⟩).1

/-- Counterexample to C9 as stated: in `crossRows` the second record is
`C → A`, but title `A` entered the node order first, so the graph view
reports the edge as `(A, C)` and the weight-2 aggregate trace's hover text
contains the block "A → C …", not the source→target block "C → A …". -/
theorem hover_direction_counterexample :
    edgeAttrsOf (build_graph crossRows) "C" "A" = some ⟨2, [], ""⟩ ∧
    ("A", "C", (⟨2, [], ""⟩ : EdgeAttrs)) ∈
      acceptedEdges (build_graph crossRows) allPass (some 2) ∧
    samePair ("A", "C") ("C", "A") = true ∧
    ¬ isSubstr (edgeBlock "C" "A" ⟨2, [], ""⟩)
        (traceText ((mkTraces crossRows).getD 0 (Trace.edgeT [] [] 1 "" none false ""))) := by
  decide

/-- C9 (amended): every edge accepted by a trace's filter contributes to
the trace's hover text a block consisting of a directional label, the
comma-joined theme list (em dash when empty), "Influence: w / 3", and the
note — the label orientation being the graph view's (the endpoint that
entered the node order earlier comes first, which coincides with
source → target whenever the source title was inserted no later than the
target).  In the two-row scenario, the weight-3 aggregate trace's hover
text contains "Themes: freedom, abolition" and "Influence: 3 / 3". -/
theorem hover_text_blocks_amended :
    (∀ (G : Graph) (posf : String → Int × Int)
        (filt : String → String → EdgeAttrs → Bool) (w : Option Int) (sfx : String)
        (e : String × String × EdgeAttrs), e ∈ acceptedEdges G filt w →
        isSubstr (edgeBlock e.1 e.2.1 e.2.2)
          (traceText (make_edge_trace G posf filt w sfx))) ∧
    (isSubstr "Themes: freedom, abolition"
        (traceText ((mkTraces scenarioRows).getD 1
          (Trace.edgeT [] [] 1 "" none false ""))) ∧
      isSubstr "Influence: 3 / 3"
        (traceText ((mkTraces scenarioRows).getD 1
          (Trace.edgeT [] [] 1 "" none false "")))) :=
  ⟨accepted_block_isInfix, by decide, by decide⟩

/-- Witness for the amended C9: the scenario's `A`–`B` edge block appears
in the weight-2 aggregate trace's hover text. -/
theorem hover_text_blocks_amended_w :
    isSubstr (edgeBlock "A" "B" ⟨2, parseThemes "freedom", ""⟩)
      (traceText (make_edge_trace (build_graph scenarioRows)
        (posOf (build_graph scenarioRows)) allPass (some 2) "_all_w2")) :=
  hover_text_blocks_amended.1 (build_graph scenarioRows)
    (posOf (build_graph scenarioRows)) allPass (some 2) "_all_w2"
    ("A", "B", ⟨2, parseThemes "freedom", ""⟩) (by decide)

/-- C6: a missing `edges.csv`, or a present file with zero parsed edge
records, makes the process exit with status 1 after a stderr diagnostic
(containing the attempted path in the missing-file case), and the output
HTML is never written on either path. -/
theorem missing_or_empty_input_exits (repoRoot : String) :
    (runScript repoRoot none =
        [Effect.mkdirAssets,
         Effect.writeStderr ("CSV not found at " ++ csvPath repoRoot),
         Effect.exitWith 1] ∧
      isSubstr (csvPath repoRoot) ("CSV not found at " ++ csvPath repoRoot) ∧
      ∀ tr, Effect.writeHtml tr ∉ runScript repoRoot none) ∧
    (runScript repoRoot (some []) =
        [Effect.mkdirAssets, Effect.writeStderr "No edges found in CSV.",
         Effect.exitWith 1] ∧
      ∀ tr, Effect.writeHtml tr ∉ runScript repoRoot (some [])) := by
  refine ⟨⟨rfl, ⟨"CSV not found at ".data, [], by simp⟩, ?_⟩, rfl, ?_⟩ <;>
    · intro tr hmem
      simp [runScript, mainEffects] at hmem

/-- C10: the `assets/` directory creation is the first observable effect of
every run (it happens at module load, before any input validation), so even
on the missing-input error path the directory exists afterwards although no
output file is written. -/
theorem assets_mkdir_module_load (repoRoot : String) (input : Option (List EdgeRec)) :
    (runScript repoRoot input).head? = some Effect.mkdirAssets ∧
    Effect.mkdirAssets ∈ runScript repoRoot none ∧
    ∀ tr, Effect.writeHtml tr ∉ runScript repoRoot none := by
  refine ⟨rfl, by simp [runScript], ?_⟩
  intro tr hmem
  simp [runScript, mainEffects] at hmem

end BuildNetwork
